import Mathlib

/-!
Verification of the Personal-Search-Engine backend
(`Backend/app/ingest.py`, `Backend/app/main.py`).

Shallow embedding conventions:
* Python floats are modelled as exact rationals (`ℚ`).
* Python `str.split()` (split on whitespace, drop empty pieces) is `splitWords`.
* The external vector index (Chroma collection) is modelled as a list of
  entries; `add` is idempotent on a reused id (entries whose id is already
  present are skipped), matching the external-index contract the design
  assumes ("add is idempotent if `id` is reused with identical content").
* The external embedder, the external Unicode normalization used by
  `clean_text_for_storage`, and the `as_completed` completion order of the
  thread pool are abstract parameters of the ingestion environment (`Env`).
* Loops with a nontrivial step are embedded with an explicit fuel argument
  that is always called with fuel = list length, which suffices because the
  step removes at least one element per iteration.
-/

namespace PSE

/-- Helper for `splitWords`: scan the characters, accumulating the current
word (reversed) in `acc`; whitespace ends a word, empty pieces are dropped,
exactly as Python `str.split()` with no separator does. -/
def splitWordsAux : List Char → List Char → List String
  | [], acc => if acc = [] then [] else [String.mk acc.reverse]
  | c :: cs, acc =>
    if c.isWhitespace then
      if acc = [] then splitWordsAux cs []
      else String.mk acc.reverse :: splitWordsAux cs []
    else splitWordsAux cs (c :: acc)

/-- Python `str.split()`: split on whitespace runs, discard empty pieces. -/
def splitWords (s : String) : List String :=
  splitWordsAux s.toList []

/-- Python `str.strip()`: drop leading and trailing whitespace. -/
def pyStrip (s : String) : String :=
  String.mk
    (((s.toList.dropWhile Char.isWhitespace).reverse.dropWhile
        Char.isWhitespace).reverse)

/-- Python `str.lower()` (ASCII-adequate model). -/
def pyLower (s : String) : String :=
  String.mk (s.toList.map Char.toLower)

/-- Python `" ".join(words)`. -/
def joinSpace (ws : List String) : String :=
  String.mk (List.intercalate [' '] (ws.map String.toList))

/-- Helper for `pyLines`: split a character list at every occurrence of
`sep`, keeping empty pieces (Python `str.split(sep)` semantics). -/
def splitOnChar (sep : Char) : List Char → List (List Char)
  | [] => [[]]
  | c :: cs =>
    match splitOnChar sep cs with
    | [] => if c = sep then [[], []] else [[c]]
    | h :: t => if c = sep then [] :: h :: t else (c :: h) :: t

/-- Python `d.split("\n")`: the lines of `d`, keeping empty pieces. -/
def pyLines (s : String) : List String :=
  (splitOnChar (Char.ofNat 10) s.toList).map String.mk

/-- Membership of a list in a list, contiguously (`List` infix test),
as an executable Bool. -/
def listInfix {α : Type} [DecidableEq α] (needle hay : List α) : Bool :=
  decide (needle <:+: hay)

/-- Python `needle in hay` on strings: contiguous substring test. -/
def strContains (hay needle : String) : Bool :=
  listInfix needle.toList hay.toList

/-! ### Chunker (`ingest.py`, `chunk_text`, lines 42-65) -/

/-- Default `chunk_size` of `chunk_text` (ingest.py line 44). -/
def DEFAULT_CHUNK_SIZE : Nat := 512

/-- Default `overlap` of `chunk_text` (ingest.py line 45). -/
def DEFAULT_OVERLAP : Nat := 64

/-- The word windows produced by the `while i < len(words)` loop of
`chunk_text`: window `words[i : i+chunk_size]`, then `i += step`.
`chunk_text` always passes `step = max (chunk_size - overlap) 1 ≥ 1`, so the
`max step 1` in the recursive call equals `step` there.  The fuel argument
is always instantiated with the length of the word list, which bounds the
iteration count since every iteration drops at least one word. -/
def chunkWindows (chunk_size step : Nat) : Nat → List String → List (List String)
  | _, [] => []
  | 0, _ :: _ => []
  | fuel + 1, w :: ws =>
    ((w :: ws).take chunk_size) ::
      chunkWindows chunk_size step fuel ((w :: ws).drop (max step 1))

/-- `chunk_text` (ingest.py lines 42-65): split into words, slide a window of
`chunk_size` words advancing by `step = max(chunk_size - overlap, 1)`, join
each window with single spaces, strip, and keep the non-empty chunks. -/
def chunk_text (text : String) (chunk_size : Nat := DEFAULT_CHUNK_SIZE)
    (overlap : Nat := DEFAULT_OVERLAP) : List String :=
  if text = "" then []
  else
    let words := splitWords text
    if words = [] then []
    else
      let step := max (chunk_size - overlap) 1
      ((chunkWindows chunk_size step words.length words).map
          (fun ws => pyStrip (joinSpace ws))).filter (fun c => c ≠ "")

/-! ### Recency weight (`main.py`, `compute_recency_weight`, lines 102-108) -/

/-- `compute_recency_weight` (main.py lines 102-108).  `now` is the value of
`time.time()` at the call; `max_age_days` is the optional integer of the request. -/
def compute_recency_weight (now mtime : ℚ) (max_age_days : Option ℤ) : ℚ :=
  match max_age_days with
  | none => 1
  | some mad =>
    let age_days : ℚ := (now - mtime) / 86400
    if age_days < 0 then 1
    else if age_days > (mad : ℚ) then 0.2
    else 1 - (age_days / ((mad : ℚ) + 1e-6)) * 0.8

/-! ### Query scoring (`main.py`, `search`, lines 116-158) -/

/-- A search request (`SearchRequest`, main.py lines 89-94).  `top_k` and the
query embedding do not influence the scoring loop and are omitted; `types`
and `max_age_days` keep their Python optionality. -/
structure SearchReq where
  query : String
  types : Option (List String)
  max_age_days : Option ℤ
deriving DecidableEq

/-- One candidate returned by the external index query (id, document text,
metadata, distance), main.py line 136.  `mtime` is optional because the code
reads it with `m.get("mtime", time.time())`. -/
structure Candidate where
  id : String
  document : String
  source : String
  pathStr : String
  type : String
  mtime : Option ℚ
  distance : ℚ
deriving DecidableEq

/-- One scored result as appended at main.py lines 153-156. -/
structure ScoredResult where
  id : String
  text : String
  snippets : List String
  source : String
  type : String
  pathStr : String
  score : ℚ
deriving DecidableEq

/-- `q_words = set(req.query.lower().split())` (main.py line 137), as the
list of distinct lowercased query words in first-occurrence order. -/
def qwords (query : String) : List String :=
  (splitWords (pyLower query)).eraseDups

/-- The metadata filter built at main.py lines 123-127: `type ∈ types` if the
`types` list is truthy, `mtime ≥ now - max_age_days*86400` if `max_age_days`
is truthy (so neither `None` nor `0` adds the mtime clause). -/
structure WhereFilter where
  typeIn : Option (List String)
  mtimeGte : Option ℚ
deriving DecidableEq

/-- Builds the `where` dict of main.py lines 123-127 from a request. -/
def buildWhere (now : ℚ) (req : SearchReq) : WhereFilter :=
  { typeIn :=
      match req.types with
      | none => none
      | some ts => if ts = [] then none else some ts
  , mtimeGte :=
      match req.max_age_days with
      | none => none
      | some m => if m = 0 then none else some (now - (m : ℚ) * 86400) }

/-- The number of distinct query words occurring as substrings of the
lowercased candidate text: `sum(1 for w in q_words if w in d.lower())`
(main.py line 146). -/
def matchCount (qw : List String) (d : String) : Nat :=
  (qw.filter (fun w => strContains (pyLower d) w)).length

/-- The body of the scoring loop for one surviving candidate
(main.py lines 145-156): base similarity, keyword boost, recency weight,
final score and snippets. -/
def scoreCandidate (now : ℚ) (qw : List String) (mad : Option ℤ)
    (c : Candidate) : ScoredResult :=
  let base_score : ℚ := 1 / (1 + c.distance)
  let keyword_boost : ℚ := min ((matchCount qw c.document : ℚ) / ((qw.length : ℚ) + 1)) 0.5
  let recency := compute_recency_weight now (c.mtime.getD now) mad
  let final_score := ((base_score * 0.7) + (keyword_boost * 0.3)) * recency
  let lines := ((pyLines c.document).map pyStrip).filter (fun l => 5 < l.length)
  let snippets := (lines.filter (fun l => qw.any (fun w => strContains (pyLower l) w))).take 3
  { id := c.id, text := c.document, snippets := snippets, source := c.source,
    type := c.type, pathStr := c.pathStr, score := final_score }

/-- The dedup-and-score loop of main.py lines 139-156: `seen_texts` is the
set of already-seen candidate texts (as a list); a candidate whose text was
seen is dropped before scoring, otherwise its text is recorded and it is
scored. -/
def dedupScore (now : ℚ) (qw : List String) (mad : Option ℤ) :
    List Candidate → List String → List ScoredResult
  | [], _ => []
  | c :: cs, seen =>
    if c.document ∈ seen then dedupScore now qw mad cs seen
    else scoreCandidate now qw mad c :: dedupScore now qw mad cs (c.document :: seen)

/-- The list `scored` built by `search` from the candidates the external
index returned (before the final stable sort by descending score at
main.py line 158). -/
def searchScored (now : ℚ) (req : SearchReq) (cands : List Candidate) :
    List ScoredResult :=
  dedupScore now (qwords req.query) req.max_age_days cands []

/-- Modelled from the spec (§4.6 step 4): declarative first-occurrence
deduplication by exact text equality, used to compare against the
imperative `seen_texts` loop. -/
def keepFirstByText : List Candidate → List Candidate
  | [] => []
  | c :: cs => c :: keepFirstByText (cs.filter (fun c2 => c2.document ≠ c.document))
termination_by l => l.length
decreasing_by
  simp only [List.length_cons]
  exact Nat.lt_succ_of_le (List.length_filter_le _ _)

/-! ### Ingestion (`ingest.py`, lines 18-179) -/

/-- The metadata dict stored with an index entry (ingest.py lines 163-171). -/
structure Metadata where
  source : String
  path : String
  type : String
  mtime : ℚ
deriving DecidableEq

/-- One entry of the external vector index: id, document text, embedding
vector, metadata (the arguments of `collection.add`, ingest.py 173-178). -/
structure Entry where
  id : String
  document : String
  embedding : List ℚ
  metadata : Metadata
deriving DecidableEq

/-- A file found by the directory scan: `path.name`, `str(path)`,
`path.suffix.lower()`, the text produced for it by `read_pdf` /
`read_text_file`, and `path.stat().st_mtime`. -/
structure SrcFile where
  name : String
  pathStr : String
  suffix : String
  text : String
  mtime : ℚ
deriving DecidableEq

/-- The ingestion environment: the scanned files of the `pdfs`, `markdown`,
`notes` subfolders in scan order, and the external capabilities —
`normalize` is the Unicode NFKD + utf-8 `errors="ignore"` round trip used by
`clean_text_for_storage`, `embed` is the sentence-transformer (`none`
models a raised exception for that chunk), and `reorder` is the completion
order in which `as_completed` yields the futures of the pool. -/
structure Env where
  files : List SrcFile
  normalize : String → String
  embed : String → Option (List ℚ)
  reorder : List String → List String

/-- `clean_text_for_storage` (ingest.py lines 18-23). -/
def clean_text_for_storage (env : Env) (text : String) : String :=
  if text = "" then "" else env.normalize text

/-- `encode_single_chunk` (ingest.py lines 68-81): clean the chunk, return
`(clean, None)` when it is whitespace-only or the embedder fails, else the
clean text paired with its embedding. -/
def encode_single_chunk (env : Env) (chunk : String) : String × Option (List ℚ) :=
  let clean_chunk := clean_text_for_storage env chunk
  if pyStrip clean_chunk = "" then (clean_chunk, none)
  else (clean_chunk, env.embed clean_chunk)

/-- `encode_chunks_parallel` (ingest.py lines 84-103): encode every chunk,
collect results in the completion order given by `env.reorder`, dropping
chunks whose embedding is absent; returns the parallel lists
`(final_chunks, final_embeddings)`. -/
def encode_chunks_parallel (env : Env) (chunks : List String) :
    List String × List (List ℚ) :=
  let results := (env.reorder chunks).map (encode_single_chunk env)
  let kept := results.filterMap
    (fun r => match r.2 with | none => none | some e => some (r.1, e))
  (kept.map Prod.fst, kept.map Prod.snd)

/-- The id string `f"{doc_id_counter}_{i}"` (ingest.py line 160). -/
def mkId (ctr i : Nat) : String :=
  toString ctr ++ "_" ++ toString i

/-- Zip ids, documents and embeddings into entries, ids counting up from
`i`; models `collection.add(ids=ids, documents=docs_safe, embeddings=...,
metadatas=...)` where `ids = [f"{ctr}_{i}" for i in range(len(docs_safe))]`
and all metadatas equal `meta`. -/
def buildEntries (meta : Metadata) (ctr : Nat) : Nat → List String → List (List ℚ) → List Entry
  | i, d :: ds, e :: es => ⟨mkId ctr i, d, e, meta⟩ :: buildEntries meta ctr (i + 1) ds es
  | _, _, _ => []

/-- The entries one file contributes when processed with counter value
`ctr` (ingest.py lines 113-178): extract, chunk, encode in parallel, skip
(`[]`) when no chunks or no embeddings survive, truncate to the common
length, clean once more into `docs_safe`, and build the added entries. -/
def fileEntries (env : Env) (f : SrcFile) (ctr : Nat) : List Entry :=
  let doc_type :=
    if f.suffix = ".pdf" then "pdf"
    else if f.suffix = ".md" then "markdown" else "notes"
  let chunks := chunk_text f.text
  if chunks = [] then []
  else
    let ce := encode_chunks_parallel env chunks
    let cleaned_chunks := ce.1
    let embeddings_list := ce.2
    if cleaned_chunks = [] ∨ embeddings_list = [] then []
    else
      let n := min cleaned_chunks.length embeddings_list.length
      let cleaned2 := cleaned_chunks.take n
      let embs2 := embeddings_list.take n
      if cleaned2 = [] ∨ embs2 = [] then []
      else
        let docs_safe := cleaned2.map (clean_text_for_storage env)
        buildEntries ⟨f.name, f.pathStr, doc_type, f.mtime⟩ ctr 0 docs_safe embs2

/-- One `add` of the external index: the new entry is appended unless its id
is already present (the external contract assumed by the design: add is
idempotent on a reused id). -/
def addEntry (idx : List Entry) (e : Entry) : List Entry :=
  if idx.any (fun x => x.id == e.id) then idx else idx ++ [e]

/-- Adding a batch of entries to the index, one by one. -/
def addAll (idx : List Entry) (new : List Entry) : List Entry :=
  new.foldl addEntry idx

/-- The mutable state of `ingest_folder`: the external index contents and
`doc_id_counter`. -/
structure IngestState where
  index : List Entry
  ctr : Nat
deriving DecidableEq

/-- Processing of one file inside the loops of `ingest_folder`
(ingest.py lines 113-179): a file whose pipeline produces no entries is
skipped and leaves the state unchanged; otherwise its entries are added
and `doc_id_counter` is incremented (line 161). -/
def ingestFile (env : Env) (st : IngestState) (f : SrcFile) : IngestState :=
  let es := fileEntries env f st.ctr
  if es = [] then st else ⟨addAll st.index es, st.ctr + 1⟩

/-- `ingest_folder` (ingest.py lines 106-179) run over an index holding
`init`: seed `doc_id_counter = int(time.time())` (= `now`), fold the file
processing over all scanned files, return the final index contents. -/
def ingest_folder (env : Env) (now : Nat) (init : List Entry) : List Entry :=
  (env.files.foldl (ingestFile env) ⟨init, now⟩).index

/-- The entries a run appends when no id collisions occur: the concatenated
per-file entries, the counter bumping exactly on non-skipped files. -/
def runEntries (env : Env) : List SrcFile → Nat → List Entry
  | [], _ => []
  | f :: fs, ctr =>
    let es := fileEntries env f ctr
    es ++ runEntries env fs (if es = [] then ctr else ctr + 1)

/-- `FreshIds idx new`: the ids of `new` are pairwise distinct and none of
them occurs in `idx`. -/
def FreshIds (idx new : List Entry) : Prop :=
  (new.map Entry.id).Nodup ∧ ∀ e ∈ new, ∀ x ∈ idx, x.id ≠ e.id

instance (idx new : List Entry) : Decidable (FreshIds idx new) := by
  unfold FreshIds; infer_instance

/-- The 600-word text of the end-to-end example in the design document. -/
def text600 : String := joinSpace (List.replicate 600 "w")

/-! ### Concrete instances used by counterexamples and witnesses -/

/-- A stale index entry for document `a.txt`, left over from an earlier
run (stored mtime 10). -/
def staleEntry : Entry :=
  { id := "999_0", document := "old note text", embedding := [2],
    metadata := { source := "a.txt", path := "data/notes/a.txt",
                  type := "notes", mtime := 10 } }

/-- An index holding only the stale `a.txt` entry. -/
def init1 : List Entry := [staleEntry]

/-- The scanned file `a.txt`, current mtime 5 (older than the stored 10),
whose text produces exactly one chunk. -/
def file1 : SrcFile :=
  { name := "a.txt", pathStr := "data/notes/a.txt", suffix := ".txt",
    text := "hello world from the note", mtime := 5 }

/-- A concrete ingestion environment: one text file, identity
normalization, a total embedder, in-order completion. -/
def env1 : Env :=
  { files := [file1], normalize := fun s => s, embed := fun _ => some [1],
    reorder := fun l => l }

/-- A concrete search request for the scoring witnesses. -/
def req6 : SearchReq := { query := "hello", types := none, max_age_days := none }

/-- A concrete candidate for the scoring witnesses. -/
def cand6 : Candidate :=
  { id := "id1", document := "hello doc", source := "a.txt",
    pathStr := "p", type := "notes", mtime := some 0, distance := 1 }

/-! ### Helper lemmas: chunker -/

theorem chunkWindows_nil (cs st fuel : Nat) : chunkWindows cs st fuel [] = [] := by
  cases fuel <;> rfl

theorem chunkWindows_cons (cs st fuel : Nat) (w : String) (ws : List String) :
    chunkWindows cs st (fuel + 1) (w :: ws)
      = ((w :: ws).take cs) :: chunkWindows cs st fuel ((w :: ws).drop (max st 1)) := rfl

/-- Every chunk that `chunk_text` outputs is non-empty: the loop only
appends a joined window `if chunk:`. -/
theorem chunk_text_mem_ne_empty (text : String) (cs ov : Nat) (c : String)
    (hc : c ∈ chunk_text text cs ov) : c ≠ "" := by
  unfold chunk_text at hc
  split_ifs at hc with h1
  · simp at hc
  · simp at hc
    exact hc.2.2

/-- With `chunk_size = 512` and `step = 448`, a 600-word list yields exactly
the two windows at word offsets 0 and 448. -/
theorem chunkWindows_sixhundred (ws : List String) (h : ws.length = 600) :
    chunkWindows 512 448 ws.length ws = [ws.take 512, ws.drop 448] := by
  obtain ⟨a, t, rfl⟩ : ∃ a t, ws = a :: t := by
    cases ws with
    | nil => simp at h
    | cons a t => exact ⟨a, t, rfl⟩
  rw [h, show (600 : Nat) = 599 + 1 from rfl, chunkWindows_cons]
  have hst : max 448 1 = 448 := rfl
  rw [hst]
  have hd : ((a :: t).drop 448).length = 152 := by
    rw [List.length_drop, h]
  obtain ⟨b, u, hbu⟩ : ∃ b u, (a :: t).drop 448 = b :: u := by
    cases hdd : (a :: t).drop 448 with
    | nil => rw [hdd] at hd; simp at hd
    | cons b u => exact ⟨b, u, rfl⟩
  rw [hbu, show (599 : Nat) = 598 + 1 from rfl, chunkWindows_cons, hst]
  have h2 : (b :: u).length = 152 := by rw [← hbu]; exact hd
  have h3 : (b :: u).drop 448 = [] := List.drop_eq_nil_of_le (by rw [h2]; norm_num)
  rw [h3, chunkWindows_nil,
    List.take_of_length_le (by rw [h2]; norm_num : (b :: u).length ≤ 512), ← hbu]

/-! ### Helper lemmas: query scoring -/

theorem keepFirstByText_cons (c : Candidate) (cs : List Candidate) :
    keepFirstByText (c :: cs)
      = c :: keepFirstByText (cs.filter (fun c2 => c2.document ≠ c.document)) := by
  rw [keepFirstByText]

theorem keepFirstByText_subset_aux :
    ∀ (n : Nat) (l : List Candidate), l.length ≤ n → keepFirstByText l ⊆ l := by
  intro n
  induction n with
  | zero =>
    intro l hl
    have : l = [] := List.length_eq_zero.mp (Nat.le_zero.mp hl)
    subst this
    simp [keepFirstByText]
  | succ n ih =>
    intro l hl
    cases l with
    | nil => simp [keepFirstByText]
    | cons c cs =>
      rw [keepFirstByText_cons]
      intro x hx
      rcases List.mem_cons.mp hx with h | h
      · exact h ▸ List.mem_cons_self c cs
      · have hlen : (cs.filter (fun c2 => c2.document ≠ c.document)).length ≤ n := by
          have h1 := List.length_filter_le (fun c2 => decide (c2.document ≠ c.document)) cs
          simp only [List.length_cons] at hl
          omega
        have := ih _ hlen h
        exact List.mem_cons_of_mem c (List.mem_of_mem_filter this)

theorem keepFirstByText_subset (l : List Candidate) : keepFirstByText l ⊆ l :=
  keepFirstByText_subset_aux l.length l le_rfl

/-- The `seen_texts` loop is the declarative first-occurrence dedup followed
by scoring, relative to an arbitrary set of already-seen texts. -/
theorem dedupScore_eq_keepFirst (now : ℚ) (qw : List String) (mad : Option ℤ) :
    ∀ (cs : List Candidate) (seen : List String),
      dedupScore now qw mad cs seen
        = (keepFirstByText (cs.filter (fun c => decide (c.document ∉ seen)))).map
            (scoreCandidate now qw mad) := by
  intro cs
  induction cs with
  | nil => intro seen; simp [dedupScore, keepFirstByText]
  | cons c cs ih =>
    intro seen
    by_cases h : c.document ∈ seen
    · rw [dedupScore, if_pos h, ih seen]
      congr 2
      simp [List.filter_cons, h]
    · rw [dedupScore, if_neg h, ih (c.document :: seen)]
      have hfc : (c :: cs).filter (fun x => decide (x.document ∉ seen))
          = c :: cs.filter (fun x => decide (x.document ∉ seen)) := by
        simp [List.filter_cons, h]
      rw [hfc, keepFirstByText_cons, List.map_cons]
      have hff : (cs.filter (fun x => decide (x.document ∉ seen))).filter
            (fun c2 => decide (c2.document ≠ c.document))
          = cs.filter (fun a => decide (a.document ∉ c.document :: seen)) := by
        rw [List.filter_filter]
        apply List.filter_congr
        intro a _
        simp [List.mem_cons, not_or, Bool.and_comm]
      rw [hff]

/-- The scored list of `search` is: dedup candidates by text with first
occurrence winning, then score each survivor. -/
theorem searchScored_eq_keepFirst (now : ℚ) (req : SearchReq) (cands : List Candidate) :
    searchScored now req cands
      = (keepFirstByText cands).map
          (scoreCandidate now (qwords req.query) req.max_age_days) := by
  unfold searchScored
  rw [dedupScore_eq_keepFirst]
  congr 2
  simp

/-! ### Helper lemmas: ingestion -/

theorem buildEntries_length (meta : Metadata) (ctr : Nat) :
    ∀ (i : Nat) (ds : List String) (es : List (List ℚ)),
      (buildEntries meta ctr i ds es).length = min ds.length es.length := by
  intro i ds
  induction ds generalizing i with
  | nil => intro es; cases es <;> simp [buildEntries]
  | cons d ds ih =>
    intro es
    cases es with
    | nil => simp [buildEntries]
    | cons e es =>
      simp only [buildEntries, List.length_cons]
      rw [ih (i + 1)]
      omega

theorem buildEntries_map_id (meta : Metadata) (ctr : Nat) :
    ∀ (i : Nat) (ds : List String) (es : List (List ℚ)),
      (buildEntries meta ctr i ds es).map Entry.id
        = (List.range' i (min ds.length es.length)).map (mkId ctr) := by
  intro i ds
  induction ds generalizing i with
  | nil => intro es; cases es <;> simp [buildEntries]
  | cons d ds ih =>
    intro es
    cases es with
    | nil => simp [buildEntries]
    | cons e es =>
      simp only [buildEntries, List.map_cons, List.length_cons]
      rw [ih (i + 1),
        show min (ds.length + 1) (es.length + 1) = min ds.length es.length + 1 by omega,
        List.range'_succ]
      simp

theorem fileEntries_length_eq (env : Env) (f : SrcFile) (c₁ c₂ : Nat) :
    (fileEntries env f c₁).length = (fileEntries env f c₂).length := by
  simp only [fileEntries]
  split_ifs <;> simp [buildEntries_length]

theorem fileEntries_eq_nil_iff (env : Env) (f : SrcFile) (c₁ c₂ : Nat) :
    fileEntries env f c₁ = [] ↔ fileEntries env f c₂ = [] := by
  rw [← List.length_eq_zero, ← List.length_eq_zero, fileEntries_length_eq env f c₁ c₂]

theorem runEntries_length (env : Env) :
    ∀ (fs : List SrcFile) (c₁ c₂ : Nat),
      (runEntries env fs c₁).length = (runEntries env fs c₂).length := by
  intro fs
  induction fs with
  | nil => intro c₁ c₂; rfl
  | cons f fs ih =>
    intro c₁ c₂
    simp only [runEntries, List.length_append]
    rw [fileEntries_length_eq env f c₁ c₂]
    congr 1
    by_cases h : fileEntries env f c₁ = []
    · have h2 : fileEntries env f c₂ = [] := (fileEntries_eq_nil_iff env f c₁ c₂).mp h
      rw [if_pos h, if_pos h2]
      exact ih c₁ c₂
    · have h2 : ¬ fileEntries env f c₂ = [] := fun hh =>
        h ((fileEntries_eq_nil_iff env f c₁ c₂).mpr hh)
      rw [if_neg h, if_neg h2]
      exact ih (c₁ + 1) (c₂ + 1)

theorem fileEntries_map_id (env : Env) (f : SrcFile) (ctr : Nat) :
    (fileEntries env f ctr).map Entry.id
      = (List.range (fileEntries env f ctr).length).map (mkId ctr) := by
  rw [List.range_eq_range']
  simp only [fileEntries]
  split_ifs <;> simp [buildEntries_map_id, buildEntries_length]

theorem mem_addAll (new : List Entry) :
    ∀ (idx : List Entry) (e : Entry), e ∈ idx → e ∈ addAll idx new := by
  induction new with
  | nil => intro idx e h; exact h
  | cons a new ih =>
    intro idx e h
    have hstep : addAll idx (a :: new) = addAll (addEntry idx a) new := rfl
    rw [hstep]
    apply ih
    unfold addEntry
    split_ifs
    · exact h
    · exact List.mem_append_left _ h

theorem addAll_of_fresh :
    ∀ (new idx : List Entry),
      (new.map Entry.id).Nodup →
      (∀ e ∈ new, ∀ x ∈ idx, x.id ≠ e.id) →
      addAll idx new = idx ++ new := by
  intro new
  induction new with
  | nil => intro idx _ _; simp [addAll]
  | cons a new ih =>
    intro idx hnd hdisj
    simp only [List.map_cons, List.nodup_cons] at hnd
    have hadd : addEntry idx a = idx ++ [a] := by
      unfold addEntry
      rw [if_neg]
      simp only [List.any_eq_true, beq_iff_eq, not_exists, not_and]
      intro x hx
      exact hdisj a (List.mem_cons_self a new) x hx
    have hstep : addAll idx (a :: new) = addAll (addEntry idx a) new := rfl
    rw [hstep, hadd, ih]
    · rw [List.append_assoc, List.singleton_append]
    · exact hnd.2
    · intro e he x hx
      rcases List.mem_append.mp hx with hxi | hxa
      · exact hdisj e (List.mem_cons_of_mem a he) x hxi
      · have hxe : x = a := by simpa using hxa
        subst hxe
        intro heq
        exact hnd.1 (heq ▸ List.mem_map_of_mem Entry.id he)

theorem freshIds_append (idx xs ys : List Entry) :
    FreshIds idx (xs ++ ys) → FreshIds idx xs ∧ FreshIds (idx ++ xs) ys := by
  rintro ⟨hnd, hdisj⟩
  rw [List.map_append, List.nodup_append] at hnd
  obtain ⟨h1, h2, h3⟩ := hnd
  refine ⟨⟨h1, ?_⟩, ⟨h2, ?_⟩⟩
  · intro e he x hx
    exact hdisj e (List.mem_append_left _ he) x hx
  · intro e he x hx
    rcases List.mem_append.mp hx with hxi | hxx
    · exact hdisj e (List.mem_append_right _ he) x hxi
    · intro heq
      exact h3 (List.mem_map_of_mem Entry.id hxx) (heq ▸ List.mem_map_of_mem Entry.id he)

theorem mem_ingest_fold (env : Env) :
    ∀ (fs : List SrcFile) (st : IngestState) (e : Entry),
      e ∈ st.index → e ∈ (List.foldl (ingestFile env) st fs).index := by
  intro fs
  induction fs with
  | nil => intro st e h; exact h
  | cons f fs ih =>
    intro st e h
    simp only [List.foldl_cons]
    apply ih
    by_cases hfe : fileEntries env f st.ctr = []
    · simpa [ingestFile, hfe] using h
    · simp only [ingestFile, hfe, if_neg, ite_false]
      exact mem_addAll _ _ _ h

theorem foldl_ingest_append (env : Env) :
    ∀ (fs : List SrcFile) (st : IngestState),
      FreshIds st.index (runEntries env fs st.ctr) →
      (List.foldl (ingestFile env) st fs).index = st.index ++ runEntries env fs st.ctr := by
  intro fs
  induction fs with
  | nil => intro st _; simp [runEntries]
  | cons f fs ih =>
    intro st hfresh
    simp only [List.foldl_cons]
    by_cases h : fileEntries env f st.ctr = []
    · have hstep : ingestFile env st f = st := by
        simp [ingestFile, h]
      have hrun : runEntries env (f :: fs) st.ctr = runEntries env fs st.ctr := by
        simp [runEntries, h]
      rw [hrun] at hfresh
      rw [hstep, hrun]
      exact ih st hfresh
    · have hrun : runEntries env (f :: fs) st.ctr
          = fileEntries env f st.ctr ++ runEntries env fs (st.ctr + 1) := by
        simp [runEntries, h]
      rw [hrun] at hfresh
      obtain ⟨hl, hr⟩ := freshIds_append st.index _ _ hfresh
      have hstep : ingestFile env st f
          = ⟨st.index ++ fileEntries env f st.ctr, st.ctr + 1⟩ := by
        simp only [ingestFile, h, ite_false, if_neg]
        rw [addAll_of_fresh _ _ hl.1 hl.2]
      rw [hstep, hrun]
      have hih := ih ⟨st.index ++ fileEntries env f st.ctr, st.ctr + 1⟩ hr
      rw [hih, List.append_assoc]

theorem ingest_folder_append (env : Env) (now : Nat) (init : List Entry)
    (h : FreshIds init (runEntries env env.files now)) :
    ingest_folder env now init = init ++ runEntries env env.files now :=
  foldl_ingest_append env env.files ⟨init, now⟩ h

/-! ## Claims -/

/-- Claim C1, counterexample: in `env1`/`init1` the document `a.txt` is
already stored with mtime 10 ≥ current mtime 5, yet `ingest_folder` is not
a no-op on it — the index changes. -/
theorem claim1_counterexample :
    (∃ e ∈ init1, e.metadata.source = file1.name ∧ file1.mtime ≤ e.metadata.mtime) ∧
    ingest_folder env1 1000 init1 ≠ init1 := by
  decide

/-- Claim C1 (amended): `ingest_folder` performs no mtime-based skipping.
Even when the document name is stored with a modification time greater
than or equal to the current one of the file, the file is processed all the
same: nothing is deleted and (its ids being fresh) its freshly computed
entries are appended, so the run is not a no-op whenever the file yields
entries. -/
theorem claim1 (env : Env) (now : Nat) (init : List Entry) (f : SrcFile)
    (hfiles : env.files = [f])
    (hstored : ∃ e ∈ init, e.metadata.source = f.name ∧ f.mtime ≤ e.metadata.mtime)
    (hfresh : FreshIds init (fileEntries env f now))
    (hne : fileEntries env f now ≠ []) :
    ingest_folder env now init = init ++ fileEntries env f now ∧
      ingest_folder env now init ≠ init := by
  have hrun : runEntries env [f] now = fileEntries env f now := by
    simp [runEntries]
  have hfr : FreshIds init (runEntries env env.files now) := by
    rw [hfiles, hrun]; exact hfresh
  have happ := ingest_folder_append env now init hfr
  rw [hfiles, hrun] at happ
  refine ⟨happ, ?_⟩
  rw [happ]
  intro hcontra
  have hlen := congrArg List.length hcontra
  rw [List.length_append] at hlen
  have hzero : (fileEntries env f now).length = 0 := by omega
  exact hne (List.length_eq_zero.mp hzero)

/-- Witness for C1: the concrete environment satisfies every hypothesis of
the amended claim, and the conclusion holds there. -/
theorem claim1_witness :
    env1.files = [file1] ∧
    (∃ e ∈ init1, e.metadata.source = file1.name ∧ file1.mtime ≤ e.metadata.mtime) ∧
    FreshIds init1 (fileEntries env1 file1 1000) ∧
    fileEntries env1 file1 1000 ≠ [] ∧
    ingest_folder env1 1000 init1 = init1 ++ fileEntries env1 file1 1000 ∧
    ingest_folder env1 1000 init1 ≠ init1 := by
  have h := claim1 env1 1000 init1 file1 rfl (by decide) (by decide) (by decide)
  exact ⟨rfl, by decide, by decide, by decide, h.1, h.2⟩

/-- Claim C2, counterexample: re-ingesting `a.txt` over `init1` leaves the
old `a.txt` entry in place and adds a new one — the index holds a mixture
of old and new entries for the document, nothing was deleted. -/
theorem claim2_counterexample :
    staleEntry ∈ init1 ∧ staleEntry.metadata.source = "a.txt" ∧
    staleEntry ∈ ingest_folder env1 1000 init1 ∧
    (∃ e ∈ ingest_folder env1 1000 init1,
      e.metadata.source = "a.txt" ∧ e ∉ init1) := by
  decide

/-- Claim C2 (amended): `ingest_folder` never deletes index entries: every
entry present before a run — including the old
entries of a re-ingested document — is still present afterwards; new entries are only added
alongside, so the entry set of a re-ingested document is extended, not
replaced. -/
theorem claim2 (env : Env) (now : Nat) (init : List Entry) (e : Entry)
    (he : e ∈ init) : e ∈ ingest_folder env now init :=
  mem_ingest_fold env env.files ⟨init, now⟩ e he

/-- Witness for C2: the stale entry survives the concrete run. -/
theorem claim2_witness : staleEntry ∈ ingest_folder env1 1000 init1 :=
  claim2 env1 1000 init1 staleEntry (by decide)

/-- Claim C3, counterexample: two runs over the same single file on the
same machine, started at different seconds, assign different ids to the
entry of the document — ids are not a function of the file name and not stable
across runs. -/
theorem claim3_counterexample :
    (ingest_folder env1 1000 []).map Entry.id = ["1000_0"] ∧
    (ingest_folder env1 2000 []).map Entry.id = ["2000_0"] ∧
    (ingest_folder env1 1000 []).map Entry.id
      ≠ (ingest_folder env1 2000 []).map Entry.id := by
  decide

/-- Claim C3 (amended): the entry ids of a document have the form
`<counter>_<ordinal>` where the ordinal is the position among the entries
actually added and the counter is `int(time.time())` at run start plus the
number of previously indexed documents of the run — a value independent of
the file name, and different between runs started at different seconds. -/
theorem claim3 (env : Env) (f : SrcFile) (ctr : Nat) :
    (fileEntries env f ctr).map Entry.id
      = (List.range (fileEntries env f ctr).length).map (mkId ctr) :=
  fileEntries_map_id env f ctr

/-- Claim C4, counterexample: with no file changes, a second run one second
later doubles the entry count from 1 to 2 — ingestion is not idempotent. -/
theorem claim4_counterexample :
    (ingest_folder env1 1000 []).length = 1 ∧
    (ingest_folder env1 1001 (ingest_folder env1 1000 [])).length = 2 := by
  decide

/-- Claim C4 (amended): ingestion is not idempotent. A second run whose
seeded counter produces ids not already present (any later start second)
re-ingests every file and appends a second, equally long batch of entries
on top of the batch of the first run, instead of leaving the index unchanged. -/
theorem claim4 (env : Env) (n₁ n₂ : Nat) (init : List Entry)
    (h1 : FreshIds init (runEntries env env.files n₁))
    (h2 : FreshIds (init ++ runEntries env env.files n₁) (runEntries env env.files n₂)) :
    ingest_folder env n₂ (ingest_folder env n₁ init)
        = init ++ runEntries env env.files n₁ ++ runEntries env env.files n₂ ∧
      (runEntries env env.files n₂).length = (runEntries env env.files n₁).length := by
  have e1 := ingest_folder_append env n₁ init h1
  have e2 := ingest_folder_append env n₂ (init ++ runEntries env env.files n₁) h2
  rw [e1, e2]
  exact ⟨rfl, runEntries_length env env.files n₂ n₁⟩

/-- Witness for C4: the concrete double run appends two one-entry batches. -/
theorem claim4_witness :
    FreshIds ([] : List Entry) (runEntries env1 env1.files 1000) ∧
    FreshIds ([] ++ runEntries env1 env1.files 1000) (runEntries env1 env1.files 1001) ∧
    ingest_folder env1 1001 (ingest_folder env1 1000 [])
        = [] ++ runEntries env1 env1.files 1000 ++ runEntries env1 env1.files 1001 ∧
    (runEntries env1 env1.files 1001).length = (runEntries env1 env1.files 1000).length := by
  have h := claim4 env1 1000 1001 [] (by decide) (by decide)
  exact ⟨by decide, by decide, h.1, h.2⟩

/-- Claim C5 (confirmed): the recency weight is 1 when `max_age_days` is
unset; otherwise, with `age_days = (now - mtime)/86400`: 1 when `age_days`
is negative, exactly 0.2 when `age_days` exceeds `max_age_days`, and the
linear decay `1 - (age_days/(max_age_days + 1e-6)) * 0.8` otherwise. -/
theorem claim5 (now mtime : ℚ) (mad : ℤ) :
    compute_recency_weight now mtime none = 1 ∧
    ((now - mtime) / 86400 < 0 → compute_recency_weight now mtime (some mad) = 1) ∧
    (¬ (now - mtime) / 86400 < 0 → (now - mtime) / 86400 > (mad : ℚ) →
      compute_recency_weight now mtime (some mad) = 0.2) ∧
    (¬ (now - mtime) / 86400 < 0 → ¬ (now - mtime) / 86400 > (mad : ℚ) →
      compute_recency_weight now mtime (some mad)
        = 1 - (((now - mtime) / 86400) / ((mad : ℚ) + 1e-6)) * 0.8) := by
  refine ⟨rfl, ?_, ?_, ?_⟩ <;> intros <;> simp [compute_recency_weight, *]

/-- Witness for C5: a document 2 days old with `max_age_days = 1` weighs
exactly 0.2; a document with a future mtime weighs 1. -/
theorem claim5_witness :
    compute_recency_weight 172800 0 (some 1) = 0.2 ∧
    compute_recency_weight 0 86400 (some 1) = 1 := by
  constructor
  · exact (claim5 172800 0 1).2.2.1 (by norm_num) (by norm_num)
  · exact (claim5 0 86400 1).2.1 (by norm_num)

/-- Claim C6 (confirmed): every scored result arises from a retrieved
candidate, and its score is exactly
`(1/(1+distance) * 0.7 + keyword_boost * 0.3) * recency_weight` where
`keyword_boost = min(matchCount/(len(q_words)+1), 0.5)` and `matchCount`
counts the distinct lowercased query words occurring as substrings of the
candidate text. -/
theorem claim6 (now : ℚ) (req : SearchReq) (cands : List Candidate)
    (r : ScoredResult) (hr : r ∈ searchScored now req cands) :
    ∃ c ∈ cands, r.id = c.id ∧ r.text = c.document ∧
      r.score = ((1 / (1 + c.distance)) * 0.7
          + (min ((matchCount (qwords req.query) c.document : ℚ)
              / (((qwords req.query).length : ℚ) + 1)) 0.5) * 0.3)
        * compute_recency_weight now (c.mtime.getD now) req.max_age_days := by
  rw [searchScored_eq_keepFirst] at hr
  obtain ⟨c, hc, rfl⟩ := List.mem_map.mp hr
  exact ⟨c, keepFirstByText_subset cands hc, rfl, rfl, rfl⟩

/-- Witness for C6 at a concrete one-candidate search. -/
theorem claim6_witness :
    ∃ c ∈ [cand6],
      (scoreCandidate 0 (qwords req6.query) req6.max_age_days cand6).id = c.id ∧
      (scoreCandidate 0 (qwords req6.query) req6.max_age_days cand6).text = c.document ∧
      (scoreCandidate 0 (qwords req6.query) req6.max_age_days cand6).score
        = ((1 / (1 + c.distance)) * 0.7
            + (min ((matchCount (qwords req6.query) c.document : ℚ)
                / (((qwords req6.query).length : ℚ) + 1)) 0.5) * 0.3)
          * compute_recency_weight 0 (c.mtime.getD 0) req6.max_age_days :=
  claim6 0 req6 [cand6] _ (List.Mem.head _)

/-- Claim C7, counterexample: `chunk_text` keeps the chunk `"hello"` whose
trimmed length 5 does not exceed 10 — no minimum-length threshold of 10 is
enforced. -/
theorem claim7_counterexample :
    "hello" ∈ chunk_text "hello" ∧ (pyStrip "hello").length ≤ 10 := by
  decide

/-- Claim C7 (amended): every chunk produced by `chunk_text` is non-empty —
the only filter the loop applies is `if chunk:` on the stripped join; there
is no 10-character minimum. -/
theorem claim7 (text : String) (cs ov : Nat) (c : String)
    (hc : c ∈ chunk_text text cs ov) : c ≠ "" :=
  chunk_text_mem_ne_empty text cs ov c hc

/-- Witness for C7 at a concrete input. -/
theorem claim7_witness :
    "hello" ∈ chunk_text "hello" ∧ ("hello" : String) ≠ "" :=
  ⟨by decide, claim7 "hello" DEFAULT_CHUNK_SIZE DEFAULT_OVERLAP "hello" (by decide)⟩

/-- Claim C8, counterexample: the chunker defaults are not 200 and 40, so
the claimed 4-chunk outcome for the 600-word text does not follow. -/
theorem claim8_counterexample :
    ¬ (DEFAULT_CHUNK_SIZE = 200 ∧ DEFAULT_OVERLAP = 40 ∧
        (chunk_text text600).length = 4) := by
  intro h
  exact absurd h.1 (by decide)

set_option maxRecDepth 100000 in
/-- Claim C8 (amended): the chunker defaults are `chunk_size = 512` and
`overlap = 64`, so the step is 448 and a 600-word text yields exactly 2
chunks, whose windows start at word offsets 0 and 448 (the second window
only 152 words long). -/
theorem claim8 :
    DEFAULT_CHUNK_SIZE = 512 ∧ DEFAULT_OVERLAP = 64 ∧
    max (DEFAULT_CHUNK_SIZE - DEFAULT_OVERLAP) 1 = 448 ∧
    (∀ ws : List String, ws.length = 600 →
      chunkWindows DEFAULT_CHUNK_SIZE 448 ws.length ws
          = [ws.take 512, ws.drop 448] ∧
        (ws.drop 448).length = 152) ∧
    chunk_text text600
      = [joinSpace (List.replicate 512 "w"), joinSpace (List.replicate 152 "w")] := by
  refine ⟨rfl, rfl, rfl, ?_, ?_⟩
  · intro ws h
    refine ⟨chunkWindows_sixhundred ws h, ?_⟩
    rw [List.length_drop, h]
  · decide

/-- Witness for the quantified part of C8 at the concrete 600-word list. -/
theorem claim8_witness :
    chunkWindows DEFAULT_CHUNK_SIZE 448 (List.replicate 600 "w").length
        (List.replicate 600 "w")
      = [(List.replicate 600 "w").take 512, (List.replicate 600 "w").drop 448] ∧
    ((List.replicate 600 "w").drop 448).length = 152 :=
  claim8.2.2.2.1 (List.replicate 600 "w") (List.length_replicate 600 "w")

/-- Claim C9 (confirmed): the scoring loop deduplicates candidates by exact
text with the first occurrence winning — the scored list is exactly the
declarative first-occurrence dedup of the candidates, each survivor scored
once; every later candidate with an already-seen text is dropped before
scoring. -/
theorem claim9 (now : ℚ) (req : SearchReq) (cands : List Candidate) :
    searchScored now req cands
      = (keepFirstByText cands).map
          (scoreCandidate now (qwords req.query) req.max_age_days) :=
  searchScored_eq_keepFirst now req cands

/-- Claim C10 (confirmed): `max_age_days = 0` adds no mtime clause to the
index filter (0 is falsy, same as absent), yet the recency weight is still
computed with `max_age_days = 0`, so every candidate with an mtime in the
past weighs exactly 0.2 while a future mtime weighs 1. -/
theorem claim10 (now mtime : ℚ) (q : String) (t : Option (List String)) :
    buildWhere now { query := q, types := t, max_age_days := some 0 }
      = buildWhere now { query := q, types := t, max_age_days := none } ∧
    (mtime < now → compute_recency_weight now mtime (some 0) = 0.2) ∧
    (now < mtime → compute_recency_weight now mtime (some 0) = 1) := by
  refine ⟨?_, ?_, ?_⟩
  · simp [buildWhere]
  · intro h
    have hpos : (0 : ℚ) < (now - mtime) / 86400 :=
      div_pos (by linarith) (by norm_num)
    simp only [compute_recency_weight, Int.cast_zero]
    rw [if_neg (not_lt.mpr hpos.le), if_pos hpos]
  · intro h
    have hneg : (now - mtime) / 86400 < 0 :=
      div_neg_of_neg_of_pos (by linarith) (by norm_num)
    simp [compute_recency_weight, hneg]

/-- Witness for C10: concrete filter equality and the two weights. -/
theorem claim10_witness :
    buildWhere 86400 { query := "q", types := none, max_age_days := some 0 }
      = buildWhere 86400 { query := "q", types := none, max_age_days := none } ∧
    compute_recency_weight 86400 0 (some 0) = 0.2 ∧
    compute_recency_weight 86400 172800 (some 0) = 1 := by
  obtain ⟨h1, h2, -⟩ := claim10 86400 0 "q" none
  obtain ⟨-, -, h3⟩ := claim10 86400 172800 "q" none
  exact ⟨h1, h2 (by norm_num), h3 (by norm_num)⟩

end PSE
